import Mathlib

/-!
Verification of the buffer/viewport/render engine of the `eep` terminal
editor.  Text is modelled as `List Char` (the source treats lines as
sequences of single-width characters), the editor state as a structure
mirroring the Rust `Editor` struct, and each editing/movement operation as
a pure state transformer translated from the source.  `usize` arithmetic
is modelled as `Nat`; where an underflow in the source matters it is made
explicit (checked subtraction returning `Option`).
-/

/-- Editor mode, from `src/editor/core.rs` (`enum Mode`). -/
inductive Mode where
  | Normal
  | Insert
  | Command
deriving DecidableEq, Repr

/-- The editor state, mirroring `struct Editor` in `src/editor/core.rs`
(same fields as the `main.rs` variant).  Strings are `List Char`. -/
structure Editor where
  content : List (List Char)
  cursor_x : Nat
  cursor_y : Nat
  mode : Mode
  status_msg : List Char
  filename : Option (List Char)
  offset_y : Nat
  offset_x : Nat
  screen_rows : Nat
  screen_cols : Nat
  command_buffer : List Char
  show_command : Bool
  tabbed : Bool
  show_line_numbers : Bool
deriving DecidableEq, Repr

/-- The line the cursor is on (`self.content[self.cursor_y]`); out-of-range
access yields `[]`, which is unreachable under `Valid`. -/
def currentLine (s : Editor) : List Char :=
  s.content.getD s.cursor_y []

/-- Length of the cursor's line. -/
def currentLineLen (s : Editor) : Nat :=
  (currentLine s).length

/-- Cursor directions accepted by `move_cursor` (the four arms of the
`match` in `src/editor/cursor.rs`). -/
inductive Dir where
  | Up
  | Down
  | Left
  | Right
deriving DecidableEq, Repr

/-- Final clamp of `move_cursor`: `if self.cursor_x > line_len
{ self.cursor_x = line_len }`. -/
def clampX (s : Editor) : Editor :=
  if currentLineLen s < s.cursor_x then { s with cursor_x := currentLineLen s } else s

/-- `Editor::move_cursor` from `src/editor/cursor.rs`. -/
def move_cursor (s : Editor) (d : Dir) : Editor :=
  let s' :=
    match d with
    | Dir.Up => if 0 < s.cursor_y then { s with cursor_y := s.cursor_y - 1 } else s
    | Dir.Down =>
        if s.cursor_y < s.content.length - 1 then { s with cursor_y := s.cursor_y + 1 } else s
    | Dir.Left =>
        if 0 < s.cursor_x then { s with cursor_x := s.cursor_x - 1 }
        else if 0 < s.cursor_y then
          { s with cursor_y := s.cursor_y - 1,
                   cursor_x := (s.content.getD (s.cursor_y - 1) []).length }
        else s
    | Dir.Right =>
        if s.cursor_x < currentLineLen s then { s with cursor_x := s.cursor_x + 1 }
        else if s.cursor_y < s.content.length - 1 then
          { s with cursor_y := s.cursor_y + 1, cursor_x := 0 }
        else s
  clampX s'

/-- `Editor::insert_char` from `src/editor/cursor.rs`: a tab inserts four
spaces and advances the column by 4, any other character is inserted at
the cursor and advances the column by 1. -/
def insert_char (s : Editor) (c : Char) : Editor :=
  let s :=
    if s.content.length ≤ s.cursor_y then { s with content := s.content ++ [[]] } else s
  if c = '\t' then
    let line := (currentLine s).insertIdx s.cursor_x ' ' |>.insertIdx s.cursor_x ' '
      |>.insertIdx s.cursor_x ' ' |>.insertIdx s.cursor_x ' '
    { s with content := s.content.set s.cursor_y line, tabbed := true,
             cursor_x := s.cursor_x + 4 }
  else
    { s with content := s.content.set s.cursor_y ((currentLine s).insertIdx s.cursor_x c),
             tabbed := false, cursor_x := s.cursor_x + 1 }

/-- `Editor::delete_char` from `src/editor/cursor.rs` (plain backspace):
no-op at `(0,0)`; remove the character before the cursor when `cursor_x >
0`; otherwise join the current line onto the previous one. -/
def delete_char (s : Editor) : Editor :=
  if s.cursor_x = 0 ∧ s.cursor_y = 0 then s
  else if 0 < s.cursor_x then
    { s with content := s.content.set s.cursor_y ((currentLine s).eraseIdx (s.cursor_x - 1)),
             cursor_x := s.cursor_x - 1 }
  else
    let current_line := currentLine s
    let content' := s.content.eraseIdx s.cursor_y
    let y' := s.cursor_y - 1
    let prev := content'.getD y' []
    { s with content := content'.set y' (prev ++ current_line),
             cursor_y := y', cursor_x := prev.length }

/-- `Editor::insert_newline` from `src/editor/cursor.rs`: split the current
line at the cursor (`split_off`), insert the tail as a new line below, and
move the cursor to the start of that line. -/
def insert_newline (s : Editor) : Editor :=
  let line := currentLine s
  let content' := (s.content.set s.cursor_y (line.take s.cursor_x)).insertIdx
    (s.cursor_y + 1) (line.drop s.cursor_x)
  { s with content := content', cursor_y := s.cursor_y + 1, cursor_x := 0 }

/-- Normal-mode `x` from `Editor::run` in `src/editor/core.rs`: delete the
character under the cursor when one exists. -/
def delete_forward (s : Editor) : Editor :=
  if s.cursor_x < currentLineLen s then
    { s with content := s.content.set s.cursor_y ((currentLine s).eraseIdx s.cursor_x) }
  else s

/-- Normal-mode `d` from `Editor::run` in `src/editor/core.rs`: delete the
current line unless it is the only one; clamp the row and reset the
column. -/
def delete_line (s : Editor) : Editor :=
  if 1 < s.content.length then
    let content' := s.content.eraseIdx s.cursor_y
    let y' := if content'.length ≤ s.cursor_y then content'.length - 1 else s.cursor_y
    { s with content := content', cursor_y := y', cursor_x := 0 }
  else s

/-- Normal-mode `0` (`self.cursor_x = 0`). -/
def goto_line_start (s : Editor) : Editor :=
  { s with cursor_x := 0 }

/-- Normal-mode `$` (`self.cursor_x = self.content[self.cursor_y].len()`). -/
def goto_line_end (s : Editor) : Editor :=
  { s with cursor_x := currentLineLen s }

/-- Normal-mode `G`: last line, end of line. -/
def goto_buffer_end (s : Editor) : Editor :=
  let y' := s.content.length - 1
  { s with cursor_y := y', cursor_x := (s.content.getD y' []).length }

/-- Normal-mode `g`: first line, first column. -/
def goto_buffer_start (s : Editor) : Editor :=
  { s with cursor_y := 0, cursor_x := 0 }

/-- The editing/movement operation set reachable from the key dispatch in
`Editor::run` (`src/editor/core.rs`). -/
inductive Op where
  | move (d : Dir)
  | lineStart
  | lineEnd
  | bufferStart
  | bufferEnd
  | delForward
  | delLine
  | insertChar (c : Char)
  | deleteChar
  | insertNewline
deriving DecidableEq, Repr

/-- Dispatch of an operation to its state transformer. -/
def applyOp (op : Op) (s : Editor) : Editor :=
  match op with
  | Op.move d => move_cursor s d
  | Op.lineStart => goto_line_start s
  | Op.lineEnd => goto_line_end s
  | Op.bufferStart => goto_buffer_start s
  | Op.bufferEnd => goto_buffer_end s
  | Op.delForward => delete_forward s
  | Op.delLine => delete_line s
  | Op.insertChar c => insert_char s c
  | Op.deleteChar => delete_char s
  | Op.insertNewline => insert_newline s

/-- Cursor validity: the cursor designates a valid buffer position
(`cursor_y < lines.len()` and `cursor_x <= line_len(cursor_y)`).  This is
the invariant of §3 of the spec; it implies `lines.len() >= 1`. -/
def Valid (s : Editor) : Prop :=
  s.cursor_y < s.content.length ∧ s.cursor_x ≤ currentLineLen s

instance : DecidablePred Valid := fun s => by
  unfold Valid; infer_instance

/-- The initial editor state from `Editor::new` (terminal size 80x24). -/
def initEditor : Editor where
  content := [[]]
  cursor_x := 0
  cursor_y := 0
  mode := Mode.Normal
  status_msg := []
  filename := none
  offset_y := 0
  offset_x := 0
  screen_rows := 22
  screen_cols := 80
  command_buffer := []
  show_command := false
  tabbed := false
  show_line_numbers := true

theorem getD_set_self (l : List (List Char)) (i : Nat) (a : List Char)
    (h : i < l.length) : (l.set i a).getD i [] = a := by
  simp [List.getD_eq_getElem?_getD, List.getElem?_set_self, h]

theorem length_eraseIdx_lt (l : List (List Char)) (i : Nat) (h : i < l.length) :
    (l.eraseIdx i).length = l.length - 1 := by
  simp [List.length_eraseIdx, h]

theorem valid_clampX (s : Editor) (h : s.cursor_y < s.content.length) :
    Valid (clampX s) := by
  unfold clampX
  split
  · exact ⟨h, le_refl _⟩
  · next hlt => exact ⟨h, by omega⟩

theorem valid_move_cursor (s : Editor) (d : Dir) (h : Valid s) :
    Valid (move_cursor s d) := by
  obtain ⟨hy, _⟩ := h
  unfold move_cursor
  apply valid_clampX
  cases d <;> dsimp only [] <;> repeat' split
  all_goals simp_all
  all_goals omega

theorem valid_insert_char (s : Editor) (c : Char) (h : Valid s) :
    Valid (insert_char s c) := by
  obtain ⟨hy, hx⟩ := h
  unfold insert_char
  have hguard : ¬ s.content.length ≤ s.cursor_y := by omega
  simp only [hguard, if_false]
  have hx' : s.cursor_x ≤ (s.content.getD s.cursor_y []).length := hx
  split
  · refine ⟨by simpa using hy, ?_⟩
    simp only [currentLineLen, currentLine]
    rw [getD_set_self _ _ _ hy]
    have e1 : (List.insertIdx s.cursor_x ' ' (s.content.getD s.cursor_y [])).length
        = (s.content.getD s.cursor_y []).length + 1 :=
      List.length_insertIdx _ _ hx'
    have e2 : (List.insertIdx s.cursor_x ' ' (List.insertIdx s.cursor_x ' '
        (s.content.getD s.cursor_y []))).length
        = (s.content.getD s.cursor_y []).length + 2 := by
      rw [List.length_insertIdx _ _ (by rw [e1]; omega), e1]
    have e3 : (List.insertIdx s.cursor_x ' ' (List.insertIdx s.cursor_x ' '
        (List.insertIdx s.cursor_x ' ' (s.content.getD s.cursor_y [])))).length
        = (s.content.getD s.cursor_y []).length + 3 := by
      rw [List.length_insertIdx _ _ (by rw [e2]; omega), e2]
    have e4 : (List.insertIdx s.cursor_x ' ' (List.insertIdx s.cursor_x ' '
        (List.insertIdx s.cursor_x ' ' (List.insertIdx s.cursor_x ' '
        (s.content.getD s.cursor_y []))))).length
        = (s.content.getD s.cursor_y []).length + 4 := by
      rw [List.length_insertIdx _ _ (by rw [e3]; omega), e3]
    rw [e4]
    omega
  · refine ⟨by simpa using hy, ?_⟩
    simp only [currentLineLen, currentLine]
    rw [getD_set_self _ _ _ hy, List.length_insertIdx _ _ hx']
    omega

theorem valid_delete_char (s : Editor) (h : Valid s) : Valid (delete_char s) := by
  obtain ⟨hy, hx⟩ := h
  unfold delete_char
  split
  · exact ⟨hy, hx⟩
  split
  · next hx0 =>
    refine ⟨by simpa using hy, ?_⟩
    simp only [currentLineLen, currentLine]
    rw [getD_set_self _ _ _ hy]
    have hxl : s.cursor_x ≤ (s.content.getD s.cursor_y []).length := hx
    have : ((s.content.getD s.cursor_y []).eraseIdx (s.cursor_x - 1)).length
        = (s.content.getD s.cursor_y []).length - 1 := by
      simp only [List.length_eraseIdx]
      split <;> omega
    omega
  · next hne hx0 =>
    have hx0' : s.cursor_x = 0 := by omega
    have hy0 : 0 < s.cursor_y := by
      rcases Nat.eq_zero_or_pos s.cursor_y with h0 | h0
      · exact absurd ⟨hx0', h0⟩ hne
      · exact h0
    have hlen : (s.content.eraseIdx s.cursor_y).length = s.content.length - 1 :=
      length_eraseIdx_lt _ _ hy
    have hy' : s.cursor_y - 1 < (s.content.eraseIdx s.cursor_y).length := by omega
    refine ⟨by simpa using hy', ?_⟩
    simp only [currentLineLen, currentLine]
    rw [getD_set_self _ _ _ hy']
    simp

theorem valid_insert_newline (s : Editor) (h : Valid s) : Valid (insert_newline s) := by
  obtain ⟨hy, hx⟩ := h
  unfold insert_newline
  have hlen : ((s.content.set s.cursor_y ((currentLine s).take s.cursor_x)).insertIdx
      (s.cursor_y + 1) ((currentLine s).drop s.cursor_x)).length
      = s.content.length + 1 := by
    rw [List.length_insertIdx _ _ (by simpa using hy), List.length_set]
  exact ⟨by simpa [hlen] using by omega, by simp⟩

theorem valid_delete_forward (s : Editor) (h : Valid s) : Valid (delete_forward s) := by
  obtain ⟨hy, hx⟩ := h
  unfold delete_forward
  split
  · next hlt =>
    refine ⟨by simpa using hy, ?_⟩
    simp only [currentLineLen, currentLine] at hlt ⊢
    rw [getD_set_self _ _ _ hy]
    simp only [List.length_eraseIdx]
    split <;> omega
  · exact ⟨hy, hx⟩

theorem valid_delete_line (s : Editor) (h : Valid s) : Valid (delete_line s) := by
  obtain ⟨hy, hx⟩ := h
  unfold delete_line
  split
  · next h1 =>
    have hlen : (s.content.eraseIdx s.cursor_y).length = s.content.length - 1 :=
      length_eraseIdx_lt _ _ hy
    constructor
    · show (if _ then _ else _) < _
      split <;> (simp_all; try omega)
    · show 0 ≤ _
      omega
  · exact ⟨hy, hx⟩

/-- Every operation of the dispatch preserves cursor validity. -/
theorem valid_applyOp (op : Op) (s : Editor) (h : Valid s) : Valid (applyOp op s) := by
  obtain ⟨hy, hx⟩ := h
  cases op with
  | move d => exact valid_move_cursor s d ⟨hy, hx⟩
  | lineStart => exact ⟨hy, Nat.zero_le _⟩
  | lineEnd => exact ⟨hy, le_refl _⟩
  | bufferStart => exact ⟨by show 0 < s.content.length; omega, Nat.zero_le _⟩
  | bufferEnd =>
    exact ⟨by show s.content.length - 1 < s.content.length; omega, le_refl _⟩
  | delForward => exact valid_delete_forward s ⟨hy, hx⟩
  | delLine => exact valid_delete_line s ⟨hy, hx⟩
  | insertChar c => exact valid_insert_char s c ⟨hy, hx⟩
  | deleteChar => exact valid_delete_char s ⟨hy, hx⟩
  | insertNewline => exact valid_insert_newline s ⟨hy, hx⟩

/-- C2: for every valid editor state (cursor designating a valid buffer
position: `cursor_y < lines.len()`, `cursor_x <= line_len(cursor_y)`),
every operation of the dispatch (moves, `G`/`g`/`0`/`$`, `x`, `d`, insert,
delete, newline) yields a state in which the cursor again designates a
valid buffer position; the vertical moves re-clamp `cursor_x` inside
`move_cursor`. -/
theorem cursor_position_always_valid (op : Op) (s : Editor) (h : Valid s) :
    Valid (applyOp op s) :=
  valid_applyOp op s h

theorem cursor_position_always_valid_witness :
    Valid (applyOp (Op.insertChar 'a') initEditor) :=
  cursor_position_always_valid (Op.insertChar 'a') initEditor (by decide)

/-- C1: from every valid state (in particular every reachable state) the
buffer keeps at least one line under every operation; `delete_line`
(Normal-mode `d`) is a no-op when only one line remains; and the backspace
line-join (`delete_char`) removes a line only when the cursor row is
positive. -/
theorem buffer_never_empty (s : Editor) (h : Valid s) :
    (∀ op : Op, 1 ≤ (applyOp op s).content.length)
    ∧ (s.content.length = 1 → delete_line s = s)
    ∧ ((delete_char s).content.length < s.content.length → 0 < s.cursor_y) := by
  refine ⟨fun op => ?_, fun h1 => ?_, fun hlt => ?_⟩
  · have := (valid_applyOp op s h).1
    omega
  · unfold delete_line
    rw [if_neg (by omega)]
  · unfold delete_char at hlt
    by_contra hy0
    have hy0' : s.cursor_y = 0 := by omega
    rcases Nat.eq_zero_or_pos s.cursor_x with hx0 | hx0
    · rw [if_pos ⟨hx0, hy0'⟩] at hlt
      omega
    · rw [if_neg (by omega), if_pos hx0] at hlt
      simp at hlt

theorem buffer_never_empty_witness :
    1 ≤ (applyOp Op.deleteChar initEditor).content.length
    ∧ (initEditor.content.length = 1 → delete_line initEditor = initEditor) := by
  have h := buffer_never_empty initEditor (by decide)
  exact ⟨h.1 Op.deleteChar, h.2.1⟩


/-! ## Escape-aware string measurement (`src/editor/render.rs`) -/

/-- The ANSI reset sequence (`RESET` constant in `src/editor/render.rs`). -/
def RESET : List Char := ['\x1B', '[', '0', 'm']

/-- The loop of `visible_length` as a state machine: `inEscape` is the
`in_escape` flag, the result is the count of printable characters. -/
def visibleAux (inEscape : Bool) : List Char → Nat
  | [] => 0
  | c :: rest =>
    if c = '\x1B' then visibleAux true rest
    else if inEscape then
      if c = 'm' then visibleAux false rest else visibleAux true rest
    else 1 + visibleAux false rest

/-- `visible_length` from `src/editor/render.rs`: counts characters,
treating every ESC-opened, `m`-terminated escape sequence as zero-width. -/
def visible_length (s : List Char) : Nat := visibleAux false s

/-- The final value of the `in_escape` flag after scanning `s`. -/
def escState (inEscape : Bool) : List Char → Bool
  | [] => inEscape
  | c :: rest =>
    if c = '\x1B' then escState true rest
    else if inEscape then
      if c = 'm' then escState false rest else escState true rest
    else escState false rest

/-- The loop state of `truncate_visible`: produced output, `current_len`,
`in_escape`, and the pending `current_escape` buffer. -/
structure TruncSt where
  res : List Char
  len : Nat
  esc : Bool
  buf : List Char
deriving DecidableEq, Repr

/-- The loop of `truncate_visible` from `src/editor/render.rs`: characters
are copied while `current_len < max_len`; escape-sequence characters are
buffered in `current_escape` and copied only when the terminating `m`
arrives; printable characters are copied and counted. -/
def truncGo (maxLen : Nat) (curLen : Nat) (inEsc : Bool) (curEsc : List Char) :
    List Char → TruncSt
  | [] => ⟨[], curLen, inEsc, curEsc⟩
  | c :: rest =>
    if maxLen ≤ curLen then ⟨[], curLen, inEsc, curEsc⟩
    else if c = '\x1B' then truncGo maxLen curLen true (curEsc ++ [c]) rest
    else if inEsc then
      if c = 'm' then
        let r := truncGo maxLen curLen false [] rest
        ⟨curEsc ++ 'm' :: r.res, r.len, r.esc, r.buf⟩
      else truncGo maxLen curLen true (curEsc ++ [c]) rest
    else
      let r := truncGo maxLen (curLen + 1) false curEsc rest
      ⟨c :: r.res, r.len, r.esc, r.buf⟩

/-- `truncate_visible` from `src/editor/render.rs`: truncate to `max_len`
printable characters and append the reset sequence when the budget was
exhausted and the output does not already end with it. -/
def truncate_visible (s : List Char) (max_len : Nat) : List Char :=
  let r := truncGo max_len 0 false [] s
  if max_len ≤ r.len ∧ ¬ (RESET.isSuffixOf r.res) then r.res ++ RESET else r.res

theorem visibleAux_append (e : Bool) (a b : List Char) :
    visibleAux e (a ++ b) = visibleAux e a + visibleAux (escState e a) b := by
  induction a generalizing e with
  | nil => simp [visibleAux, escState]
  | cons c rest ih =>
    simp only [List.cons_append, visibleAux, escState, List.append_eq]
    split
    · rw [ih]
    · split
      · split <;> rw [ih]
      · rw [ih]
        omega

theorem escState_append (e : Bool) (a b : List Char) :
    escState e (a ++ b) = escState (escState e a) b := by
  induction a generalizing e with
  | nil => simp [escState]
  | cons c rest ih =>
    simp only [List.cons_append, escState, List.append_eq]
    split
    · rw [ih]
    · split
      · split <;> rw [ih]
      · rw [ih]

theorem visibleAux_noM (b : List Char) (hb : 'm' ∉ b) :
    visibleAux true b = 0 ∧ escState true b = true := by
  induction b with
  | nil => simp [visibleAux, escState]
  | cons c rest ih =>
    have hc : c ≠ 'm' := fun h => hb (h ▸ List.mem_cons_self c rest)
    have hrest : 'm' ∉ rest := fun h => hb (List.mem_cons_of_mem c h)
    simp only [visibleAux, escState, if_neg hc]
    split <;> exact ih hrest

theorem visibleAux_noEsc (s : List Char) (hs : '\x1B' ∉ s) :
    visibleAux false s = s.length ∧ escState false s = false := by
  induction s with
  | nil => simp [visibleAux, escState]
  | cons c rest ih =>
    have hc : c ≠ '\x1B' := fun h => hs (h ▸ List.mem_cons_self c rest)
    have hrest : '\x1B' ∉ rest := fun h => hs (List.mem_cons_of_mem c h)
    simp only [visibleAux, escState, if_neg hc, if_neg (Bool.false_ne_true)]
    refine ⟨?_, (ih hrest).2⟩
    rw [(ih hrest).1, List.length_cons]
    omega

theorem visibleAux_RESET (e : Bool) : visibleAux e RESET = 0 := by
  cases e <;> decide

theorem escState_RESET (e : Bool) : escState e RESET = false := by
  cases e <;> decide

/-- The final `current_len` of the truncation loop is the printable budget
actually consumed: the minimum of `max_len` and the visible length. -/
theorem truncGo_len (t : List Char) (maxLen curLen : Nat) (inEsc : Bool)
    (curEsc : List Char) (h : curLen ≤ maxLen) :
    (truncGo maxLen curLen inEsc curEsc t).len = min maxLen (curLen + visibleAux inEsc t) := by
  induction t generalizing curLen inEsc curEsc with
  | nil => simp [truncGo, visibleAux]; omega
  | cons c rest ih =>
    simp only [truncGo, visibleAux]
    split
    · next hbreak => simp; omega
    · next hbreak =>
      split
      · next hc => exact ih _ _ _ h
      · next hc =>
        split
        · next hesc =>
          split
          · next hm => simpa using ih _ _ _ h
          · next hm => exact ih _ _ _ h
        · next hesc =>
          have := ih (curLen + 1) false curEsc (by omega)
          simp only [this]
          omega

/-- Loop-state invariant of `truncate_visible`: outside an escape the
pending buffer is empty; inside one it starts with ESC and contains no
terminator yet. -/
def TruncInv (inEsc : Bool) (curEsc : List Char) : Prop :=
  (inEsc = false → curEsc = []) ∧ (inEsc = true → curEsc.head? = some '\x1B' ∧ 'm' ∉ curEsc)

theorem visibleAux_flush (curEsc tail : List Char)
    (hhead : curEsc.head? = some '\x1B') (hm : 'm' ∉ curEsc) :
    visibleAux false (curEsc ++ 'm' :: tail) = visibleAux false tail := by
  cases curEsc with
  | nil => simp at hhead
  | cons c0 cs =>
    have hc0 : c0 = '\x1B' := by simpa using hhead
    subst hc0
    have hcs : 'm' ∉ cs := fun h => hm (List.mem_cons_of_mem _ h)
    have h1 : visibleAux false ('\x1B' :: (cs ++ 'm' :: tail)) = visibleAux true (cs ++ 'm' :: tail) := by
      simp [visibleAux]
    rw [List.cons_append, h1, visibleAux_append, (visibleAux_noM cs hcs).1,
      (visibleAux_noM cs hcs).2]
    simp [visibleAux]

/-- The visible length of the truncation loop's output equals the number
of printable characters it consumed. -/
theorem truncGo_visible (t : List Char) (maxLen curLen : Nat) (inEsc : Bool)
    (curEsc : List Char) (h : curLen ≤ maxLen) (hinv : TruncInv inEsc curEsc) :
    visibleAux false (truncGo maxLen curLen inEsc curEsc t).res
      = (truncGo maxLen curLen inEsc curEsc t).len - curLen := by
  induction t generalizing curLen inEsc curEsc with
  | nil => simp [truncGo, visibleAux]
  | cons c rest ih =>
    simp only [truncGo]
    split
    · next hbreak => simp [visibleAux]
    · next hbreak =>
      split
      · next hc =>
        subst hc
        refine ih _ _ _ h ⟨fun hf => by simp at hf, fun _ => ⟨?_, ?_⟩⟩
        · rcases hinv with ⟨h0, h1⟩
          cases inEsc with
          | false => simp [h0 rfl]
          | true =>
            rw [List.head?_append, (h1 rfl).1]
            rfl
        · rcases hinv with ⟨h0, h1⟩
          cases inEsc with
          | false => simp [h0 rfl]
          | true =>
            intro hmem
            rcases List.mem_append.mp hmem with hin | hin
            · exact (h1 rfl).2 hin
            · simp at hin
      · next hc =>
        split
        · next hesc =>
          split
          · next hm =>
            subst hm
            have hr := ih curLen false [] h ⟨fun _ => rfl, fun hf => by simp at hf⟩
            simp only []
            rw [visibleAux_flush curEsc _ (hinv.2 hesc).1 (hinv.2 hesc).2]
            simpa using hr
          · next hm =>
            refine ih _ _ _ h ⟨fun hf => by simp at hf, fun _ => ⟨?_, ?_⟩⟩
            · rw [List.head?_append, (hinv.2 hesc).1]
              rfl
            · intro hmem
              rcases List.mem_append.mp hmem with hin | hin
              · exact (hinv.2 hesc).2 hin
              · simp at hin
                exact hm hin.symm
        · next hesc =>
          have hesc' : inEsc = false := by
            cases inEsc
            · rfl
            · exact absurd rfl hesc
          subst hesc'
          have hr := ih (curLen + 1) false curEsc (by omega)
            ⟨fun _ => hinv.1 rfl, fun hf => by simp at hf⟩
          have hlen := truncGo_len rest maxLen (curLen + 1) false curEsc (by omega)
          simp only [visibleAux, if_neg hc, Bool.false_eq_true, if_false]
          rw [hr]
          omega

/-- Visible length of a truncation: the budget is honored exactly. -/
theorem visible_length_truncate (s : List Char) (n : Nat) :
    visible_length (truncate_visible s n) = min n (visible_length s) := by
  have hlen := truncGo_len s n 0 false [] (Nat.zero_le n)
  have hvis := truncGo_visible s n 0 false [] (Nat.zero_le n)
    ⟨fun _ => rfl, fun hf => by simp at hf⟩
  unfold truncate_visible visible_length
  dsimp only
  split
  · next hcond =>
    rw [visibleAux_append]
    unfold visible_length at hvis
    rw [hvis, visibleAux_RESET]
    omega
  · next hcond =>
    unfold visible_length at hvis
    rw [hvis]
    omega

/-- When the loop breaks because the budget is exhausted, the result ends
with the reset sequence. -/
theorem truncate_ends_reset (s : List Char) (n : Nat) (h : n < visible_length s) :
    RESET.isSuffixOf (truncate_visible s n) = true := by
  have hlen := truncGo_len s n 0 false [] (Nat.zero_le n)
  unfold truncate_visible
  dsimp only
  have h1 : n ≤ (truncGo n 0 false [] s).len := by
    rw [hlen]
    unfold visible_length at h
    omega
  split
  · next hcond =>
    rw [List.isSuffixOf_iff_suffix]
    exact List.suffix_append _ _
  · next hcond =>
    rcases Bool.eq_false_or_eq_true (RESET.isSuffixOf (truncGo n 0 false [] s).res) with
      ht | hf
    · exact ht
    · exact absurd ⟨h1, by simp [hf]⟩ hcond

/-- C8: escape-aware measurement and truncation are correct: truncation
never exceeds the printable budget; a truncation that cuts off printable
content ends with the reset sequence `\x1B[0m`; `visible_length` counts
every character of an escape-free string; and an ESC-opened,
`m`-terminated escape sequence contributes zero to `visible_length`. -/
theorem escape_measurement_truncation_correct (s a b c : List Char) (n : Nat) :
    visible_length (truncate_visible s n) ≤ n
    ∧ (n < visible_length s → RESET.isSuffixOf (truncate_visible s n) = true)
    ∧ ('\x1B' ∉ s → visible_length s = s.length)
    ∧ (escState false a = false → 'm' ∉ b →
        visible_length (a ++ '\x1B' :: (b ++ 'm' :: c))
          = visible_length a + visible_length c) := by
  refine ⟨?_, truncate_ends_reset s n, fun h => (visibleAux_noEsc s h).1, fun ha hb => ?_⟩
  · rw [visible_length_truncate]
    omega
  · unfold visible_length
    rw [visibleAux_append, ha]
    have h1 : visibleAux false ('\x1B' :: (b ++ 'm' :: c)) = visibleAux true (b ++ 'm' :: c) := by
      simp [visibleAux]
    rw [h1, visibleAux_append, (visibleAux_noM b hb).1, (visibleAux_noM b hb).2]
    have h2 : visibleAux true ('m' :: c) = visibleAux false c := by
      simp [visibleAux]
    rw [h2]
    omega

theorem escape_measurement_truncation_correct_witness :
    RESET.isSuffixOf (truncate_visible ['a', 'b'] 1) = true
    ∧ visible_length (['x'] ++ '\x1B' :: (['['] ++ 'm' :: ['y', 'z'])) = 3 := by
  have h := escape_measurement_truncation_correct ['a', 'b'] ['x'] ['['] ['y', 'z'] 1
  refine ⟨h.2.1 (by decide), ?_⟩
  rw [h.2.2.2 (by decide) (by decide)]
  decide

theorem truncGo_inEsc_noM (b : List Char) (hb : 'm' ∉ b) (maxLen curLen : Nat)
    (inEsc : Bool) (curEsc : List Char) (heq : inEsc = true) :
    (truncGo maxLen curLen inEsc curEsc b).res = []
    ∧ (truncGo maxLen curLen inEsc curEsc b).len = curLen := by
  subst heq
  induction b generalizing curEsc with
  | nil => exact ⟨rfl, rfl⟩
  | cons c rest ih =>
    have hc : c ≠ 'm' := fun h => hb (h ▸ List.mem_cons_self c rest)
    have hrest : 'm' ∉ rest := fun h => hb (List.mem_cons_of_mem c h)
    simp only [truncGo]
    split
    · exact ⟨rfl, rfl⟩
    · split
      · exact ih hrest _
      · rw [if_pos trivial]
        exact ih hrest _

/-- Characters from an unterminated escape sequence are dropped entirely
by the truncation loop and consume no budget. -/
theorem truncGo_drop_unterminated (a b : List Char) (hb : 'm' ∉ b)
    (maxLen curLen : Nat) (inEsc : Bool) (curEsc : List Char) :
    (truncGo maxLen curLen inEsc curEsc (a ++ '\x1B' :: b)).res
      = (truncGo maxLen curLen inEsc curEsc a).res
    ∧ (truncGo maxLen curLen inEsc curEsc (a ++ '\x1B' :: b)).len
      = (truncGo maxLen curLen inEsc curEsc a).len := by
  induction a generalizing curLen inEsc curEsc with
  | nil =>
    simp only [List.nil_append, truncGo]
    split
    · exact ⟨rfl, rfl⟩
    · split
      · exact truncGo_inEsc_noM b hb _ _ _ _ rfl
      · next hne => exact absurd trivial hne
  | cons c rest ih =>
    simp only [List.cons_append, truncGo, List.append_eq]
    split
    · exact ⟨rfl, rfl⟩
    · split
      · exact ih _ _ _
      · split
        · split
          · have := ih curLen false []
            dsimp only
            rw [this.1, this.2]
            exact ⟨rfl, rfl⟩
          · exact ih _ _ _
        · have := ih (curLen + 1) false curEsc
          dsimp only
          rw [this.1, this.2]
          exact ⟨rfl, rfl⟩

/-- C10: an ESC that is never followed by a terminating `m` swallows the
rest of the string: it contributes nothing to `visible_length`, and
`truncate_visible` copies none of it to its output. -/
theorem unterminated_escape_swallowed (a b : List Char) (n : Nat)
    (ha : escState false a = false) (hb : 'm' ∉ b) :
    visible_length (a ++ '\x1B' :: b) = visible_length a
    ∧ truncate_visible (a ++ '\x1B' :: b) n = truncate_visible a n := by
  constructor
  · unfold visible_length
    rw [visibleAux_append, ha]
    have h1 : visibleAux false ('\x1B' :: b) = visibleAux true b := by
      simp [visibleAux]
    rw [h1, (visibleAux_noM b hb).1]
    omega
  · have hd := truncGo_drop_unterminated a b hb n 0 false []
    unfold truncate_visible
    dsimp only
    rw [hd.1, hd.2]

theorem unterminated_escape_swallowed_witness :
    visible_length (['h', 'i'] ++ '\x1B' :: ['[', '3', '1']) = 2
    ∧ truncate_visible (['h', 'i'] ++ '\x1B' :: ['[', '3', '1']) 5
      = truncate_visible ['h', 'i'] 5 := by
  have h := unterminated_escape_swallowed ['h', 'i'] ['[', '3', '1'] 5
    (by decide) (by decide)
  exact ⟨by rw [h.1]; decide, h.2⟩

/-! ## Viewport reconciliation (`Editor::scroll` and the render-time
re-adjustment) -/

/-- `Editor::scroll` from `src/editor/cursor.rs` (the `main.rs` variant is
identical): minimal-shift reconciliation of both offsets. -/
def scroll (s : Editor) : Editor :=
  let s1 :=
    if s.cursor_y < s.offset_y then { s with offset_y := s.cursor_y }
    else if s.offset_y + s.screen_rows ≤ s.cursor_y then
      { s with offset_y := s.cursor_y - s.screen_rows + 1 }
    else s
  if s1.cursor_x < s1.offset_x then { s1 with offset_x := s1.cursor_x }
  else if s1.offset_x + s1.screen_cols ≤ s1.cursor_x then
    { s1 with offset_x := s1.cursor_x - s1.screen_cols + 1 }
  else s1

/-- Modelled from the spec (§4.2 `reconcile_viewport`): the minimal-shift
value of one offset — move exactly to the cursor when it is before the
window, move exactly enough to put the cursor on the last visible
row/column when it is after, otherwise keep the offset. -/
def minShift (cursor offset visible : Nat) : Nat :=
  if cursor < offset then cursor
  else if offset + visible ≤ cursor then cursor + 1 - visible
  else offset

/-- The `offset_y` re-adjustment performed by `Editor::render`
(`src/editor/render.rs`, lines 40-45) immediately before composing the
frame. -/
def render_adjust_offset_y (s : Editor) : Editor :=
  let s1 :=
    if s.offset_y + s.screen_rows - 1 ≤ s.cursor_y then
      { s with offset_y := s.cursor_y - (s.screen_rows - 1) + 1 }
    else s
  if s1.cursor_y < s1.offset_y then { s1 with offset_y := s1.cursor_y } else s1

/-- `scroll` only rewrites the two offsets. -/
theorem scroll_eq (s : Editor) :
    scroll s = { s with offset_y := minShift s.cursor_y s.offset_y s.screen_rows,
                        offset_x := minShift s.cursor_x s.offset_x s.screen_cols } := by
  obtain ⟨cont, cx, cy, mo, sm, fn, oy, ox, sr, sc, cb, shc, tb, sln⟩ := s
  unfold scroll minShift
  dsimp only
  split_ifs <;> simp_all [Editor.mk.injEq] <;> omega

theorem minShift_idem (cursor offset visible : Nat) (h : 1 ≤ visible) :
    minShift cursor (minShift cursor offset visible) visible
      = minShift cursor offset visible := by
  unfold minShift
  split_ifs <;> omega

/-- Concrete state exhibiting the `screen_rows = 0` oscillation: a 2-row
terminal gives `screen_rows = rows - 2 = 0`. -/
def editorRows0 : Editor := { initEditor with screen_rows := 0 }

/-- C6 counterexample: with `screen_rows = 0` (a two-row terminal), a
second `scroll` changes the offsets again, so reconciliation is not
idempotent for every state. -/
theorem scroll_not_idempotent_rows0 :
    scroll (scroll editorRows0) ≠ scroll editorRows0 := by decide

/-- C6 amended: viewport reconciliation is idempotent for every state
whose content area is non-degenerate (`screen_rows ≥ 1` and
`screen_cols ≥ 1`). -/
theorem scroll_idempotent (s : Editor) (hr : 1 ≤ s.screen_rows)
    (hc : 1 ≤ s.screen_cols) :
    scroll (scroll s) = scroll s := by
  rw [scroll_eq s, scroll_eq]
  simp [Editor.mk.injEq, minShift_idem _ _ _ hr, minShift_idem _ _ _ hc]

theorem scroll_idempotent_witness :
    scroll (scroll initEditor) = scroll initEditor :=
  scroll_idempotent initEditor (by decide) (by decide)

theorem minShift_window (cursor offset visible : Nat) (h : 1 ≤ visible) :
    minShift cursor offset visible ≤ cursor
    ∧ cursor < minShift cursor offset visible + visible := by
  unfold minShift
  split_ifs <;> omega

/-- Concrete state with the cursor below the visible window
(`screen_rows = 5`, `cursor_y = 10`, offsets 0). -/
def editorBelowWindow : Editor :=
  { initEditor with content := List.replicate 11 [], cursor_y := 10, screen_rows := 5 }

/-- C5 counterexample: after reconciliation the frame composer re-adjusts
`offset_y`, so the offset in effect when the frame is composed is not the
minimal-shift value `cursor_y - screen_rows + 1` (the cursor does not land
on the last visible row). -/
theorem composed_offset_not_minimal_shift :
    (render_adjust_offset_y (scroll editorBelowWindow)).offset_y
      ≠ minShift editorBelowWindow.cursor_y editorBelowWindow.offset_y
          editorBelowWindow.screen_rows := by decide

/-- C5 amended: `scroll` itself computes exactly the minimal-shift offsets
for both axes; but the row offset in effect at frame composition is
further adjusted by `render`: whenever the cursor would sit on the last
visible row, the composed `offset_y` is one larger than `scroll`'s (the
cursor is shown on the second-to-last visible row); otherwise it is
`scroll`'s offset.  The column offset is not re-adjusted. -/
theorem scroll_minimal_shift_render_composed (s : Editor) (h : 2 ≤ s.screen_rows) :
    (scroll s).offset_y = minShift s.cursor_y s.offset_y s.screen_rows
    ∧ (scroll s).offset_x = minShift s.cursor_x s.offset_x s.screen_cols
    ∧ (render_adjust_offset_y (scroll s)).offset_y
        = (if s.cursor_y + 1 = (scroll s).offset_y + s.screen_rows
           then (scroll s).offset_y + 1 else (scroll s).offset_y)
    ∧ (render_adjust_offset_y (scroll s)).offset_x = (scroll s).offset_x := by
  obtain ⟨cont, cx, cy, mo, sm, fn, oy, ox, sr, sc, cb, shc, tb, sln⟩ := s
  rw [scroll_eq]
  have hw := minShift_window cy oy sr (by dsimp only at h ⊢; omega)
  refine ⟨rfl, rfl, ?_, ?_⟩
  · unfold render_adjust_offset_y
    dsimp only at h hw ⊢
    split_ifs <;> (dsimp only at *) <;> omega
  · unfold render_adjust_offset_y
    dsimp only
    split_ifs <;> rfl

theorem scroll_minimal_shift_render_composed_witness :
    (scroll editorBelowWindow).offset_y = 6
    ∧ (render_adjust_offset_y (scroll editorBelowWindow)).offset_y = 7 := by
  have h := scroll_minimal_shift_render_composed editorBelowWindow (by decide)
  constructor
  · rw [h.1]; decide
  · rw [h.2.2.1]; decide

/-! ## Line splitting and serialization (`open_file` / `save_file`) -/

/-- Rust `str::lines` strips one `'\r'` before each terminating `'\n'`
(`\r\n` line endings). -/
def stripCR (l : List Char) : List Char :=
  if l.getLast? = some '\r' then l.dropLast else l

/-- The scanner behind `content.lines()`: `cur` is the current line,
accumulated in reverse; a terminated line is emitted at each `'\n'`, and a
final unterminated line is emitted only when nonempty. -/
def rustLinesGo (cur : List Char) : List Char → List (List Char)
  | [] => if cur.isEmpty then [] else [cur.reverse]
  | c :: rest =>
    if c = '\n' then stripCR cur.reverse :: rustLinesGo [] rest
    else rustLinesGo (c :: cur) rest

/-- `text.lines()` from Rust, as used by `Editor::open_file`
(`src/editor/core.rs`): split at `'\n'` / `"\r\n"`, no trailing empty
line. -/
def rust_lines (t : List Char) : List (List Char) :=
  rustLinesGo [] t

/-- The content computed by `Editor::open_file`: the lines of the text,
or a single empty line if there are none. -/
def load_content (text : List Char) : List (List Char) :=
  let l := rust_lines text
  if l = [] then [[]] else l

/-- Rust `Vec::join("\n")`. -/
def joinNl : List (List Char) → List Char
  | [] => []
  | [l] => l
  | l :: rest => l ++ '\n' :: joinNl rest

/-- The bytes written by `Editor::save_file` (`src/editor/core.rs`, same
in `main.rs`): join the lines with `'\n'` and append a final `'\n'` only
when the join is nonempty and does not already end with one. -/
def save_file_content (content : List (List Char)) : List Char :=
  let j := joinNl content
  match j.getLast? with
  | some c => if c ≠ '\n' then j ++ ['\n'] else j
  | none => j

/-- Ends in exactly one trailing newline. -/
def endsOneNewline (t : List Char) : Prop :=
  t.getLast? = some '\n' ∧ t.dropLast.getLast? ≠ some '\n'

instance : DecidablePred endsOneNewline := fun t => by
  unfold endsOneNewline; infer_instance

/-- `rust_lines` prepends pending characters onto the first emitted line. -/
def prependToFirst (p : List Char) : List (List Char) → List (List Char)
  | [] => if p.isEmpty then [] else [p]
  | h :: rest => (p ++ h) :: rest

theorem stripCR_noCR (l : List Char) (h : '\r' ∉ l) : stripCR l = l := by
  unfold stripCR
  split
  · next hlast =>
    cases l with
    | nil => simp at hlast
    | cons a rest =>
      exfalso
      apply h
      have := List.mem_of_mem_getLast? hlast
      simpa using this
  · rfl

theorem prependToFirst_compose (p : List Char) (c : Char) (L : List (List Char)) :
    prependToFirst p (prependToFirst [c] L) = prependToFirst (p ++ [c]) L := by
  cases L with
  | nil => simp [prependToFirst]
  | cons h rest => simp [prependToFirst]

/-- Generalized scanner characterization: pending characters are prepended
to the first line of the remainder. -/
theorem rustLinesGo_eq (t : List Char) (cur : List Char)
    (hcur : '\r' ∉ cur) (ht : '\r' ∉ t) :
    rustLinesGo cur t = prependToFirst cur.reverse (rust_lines t) := by
  induction t generalizing cur with
  | nil =>
    simp only [rustLinesGo, rust_lines, prependToFirst]
    split
    · next hemp => simp_all
    · next hemp => simp_all
  | cons c rest ih =>
    have hcr : c ≠ '\r' := fun h => ht (h ▸ List.mem_cons_self c rest)
    have hrest : '\r' ∉ rest := fun h => ht (List.mem_cons_of_mem c h)
    by_cases hc : c = '\n'
    · subst hc
      have hl : rust_lines ('\n' :: rest) = [] :: rust_lines rest := by
        simp [rust_lines, rustLinesGo, stripCR]
      rw [hl]
      simp only [rustLinesGo, if_pos rfl, prependToFirst]
      rw [stripCR_noCR _ (by simpa using hcur)]
      simp [rust_lines]
    · have hl : rust_lines (c :: rest) = prependToFirst [c] (rust_lines rest) := by
        simp only [rust_lines, rustLinesGo, if_neg hc]
        exact ih [c] (by simp; exact fun h => hcr h.symm) hrest
      rw [hl, prependToFirst_compose]
      simp only [rustLinesGo, if_neg hc]
      have := ih (c :: cur) (by simp; exact ⟨fun h => hcr h.symm, hcur⟩) hrest
      rw [this]
      simp

theorem rustLinesGo_eq_nil (t : List Char) (cur : List Char)
    (h : rustLinesGo cur t = []) : cur = [] ∧ t = [] := by
  induction t generalizing cur with
  | nil =>
    simp only [rustLinesGo] at h
    split at h
    · next hemp => exact ⟨by simpa using hemp, rfl⟩
    · simp at h
  | cons c rest ih =>
    simp only [rustLinesGo] at h
    split at h
    · simp at h
    · have := ih (c :: cur) h
      simp at this

theorem rust_lines_ne_nil (t : List Char) (h : t ≠ []) : rust_lines t ≠ [] := by
  intro hn
  exact h (rustLinesGo_eq_nil t [] hn).2

theorem joinNl_prepend (p h : List Char) (r : List (List Char)) :
    joinNl ((p ++ h) :: r) = p ++ joinNl (h :: r) := by
  cases r with
  | nil => simp [joinNl]
  | cons a l => simp [joinNl]

/-- The join inverts the split for `'\r'`-free text with no trailing
newline. -/
theorem joinNl_rust_lines (t : List Char) (hr : '\r' ∉ t)
    (hlast : t.getLast? ≠ some '\n') :
    joinNl (rust_lines t) = t := by
  induction t with
  | nil => simp [rust_lines, rustLinesGo, joinNl]
  | cons c rest ih =>
    have hrest : '\r' ∉ rest := fun h => hr (List.mem_cons_of_mem c h)
    by_cases hre : rest = []
    · subst hre
      have hc : c ≠ '\n' := by
        intro h
        exact hlast (by simp [h])
      simp [rust_lines, rustLinesGo, if_neg hc, joinNl]
    · have hlast' : rest.getLast? ≠ some '\n' := by
        cases rest with
        | nil => exact absurd rfl hre
        | cons a l => rwa [List.getLast?_cons_cons] at hlast
      by_cases hc : c = '\n'
      · subst hc
        have hl : rust_lines ('\n' :: rest) = [] :: rust_lines rest := by
          simp [rust_lines, rustLinesGo, stripCR]
        rw [hl]
        rcases hrl : rust_lines rest with _ | ⟨h1, r1⟩
        · exact absurd hrl (rust_lines_ne_nil rest hre)
        · have := ih hrest hlast'
          rw [hrl] at this
          simp only [joinNl, List.nil_append]
          rw [this]
      · have hl : rust_lines (c :: rest) = prependToFirst [c] (rust_lines rest) := by
          simp only [rust_lines, rustLinesGo, if_neg hc]
          exact rustLinesGo_eq rest [c]
            (by simp; exact fun h => (hr (by simp [h.symm]))) hrest
        rw [hl]
        rcases hrl : rust_lines rest with _ | ⟨h1, r1⟩
        · exact absurd hrl (rust_lines_ne_nil rest hre)
        · have := ih hrest hlast'
          rw [hrl] at this
          show joinNl (([c] ++ h1) :: r1) = c :: rest
          rw [joinNl_prepend, this]
          rfl

/-- Appending a single newline to text that does not end in one does not
change its lines. -/
theorem rust_lines_append_newline (t : List Char) (hr : '\r' ∉ t) (hne : t ≠ [])
    (hlast : t.getLast? ≠ some '\n') :
    rust_lines (t ++ ['\n']) = rust_lines t := by
  induction t with
  | nil => exact absurd rfl hne
  | cons c rest ih =>
    have hrest : '\r' ∉ rest := fun h => hr (List.mem_cons_of_mem c h)
    have hcr : c ≠ '\r' := fun h => hr (h ▸ List.mem_cons_self c rest)
    by_cases hre : rest = []
    · subst hre
      have hc : c ≠ '\n' := by
        intro h
        exact hlast (by simp [h])
      show rust_lines [c, '\n'] = rust_lines [c]
      simp [rust_lines, rustLinesGo, if_neg hc, stripCR, hcr]
    · have hlast' : rest.getLast? ≠ some '\n' := by
        cases rest with
        | nil => exact absurd rfl hre
        | cons a l => rwa [List.getLast?_cons_cons] at hlast
      by_cases hc : c = '\n'
      · subst hc
        have h1 : rust_lines (('\n' :: rest) ++ ['\n']) = [] :: rust_lines (rest ++ ['\n']) := by
          simp [rust_lines, rustLinesGo, stripCR]
        have h2 : rust_lines ('\n' :: rest) = [] :: rust_lines rest := by
          simp [rust_lines, rustLinesGo, stripCR]
        rw [h1, h2, ih hrest hre hlast']
      · have hrnl : '\r' ∉ rest ++ ['\n'] := by
          simp [hrest]
        have h1 : rust_lines ((c :: rest) ++ ['\n'])
            = prependToFirst [c] (rust_lines (rest ++ ['\n'])) := by
          simp only [List.cons_append, rust_lines, rustLinesGo, if_neg hc]
          exact rustLinesGo_eq (rest ++ ['\n']) [c]
            (by simp; exact fun h => hcr h.symm) hrnl
        have h2 : rust_lines (c :: rest)
            = prependToFirst [c] (rust_lines rest) := by
          simp only [rust_lines, rustLinesGo, if_neg hc]
          exact rustLinesGo_eq rest [c] (by simp; exact fun h => hcr h.symm) hrest
        rw [h1, h2, ih hrest hre hlast']

theorem joinNl_concat (ls : List (List Char)) (l : List Char) :
    ∃ pre, joinNl (ls ++ [l]) = pre ++ l := by
  induction ls with
  | nil => exact ⟨[], by simp [joinNl]⟩
  | cons a ls' ih =>
    obtain ⟨pre, hp⟩ := ih
    cases ls' with
    | nil => exact ⟨a ++ ['\n'], by simp [joinNl]⟩
    | cons b ls'' =>
      refine ⟨a ++ '\n' :: pre, ?_⟩
      simp only [List.cons_append, joinNl, List.append_eq]
      rw [List.cons_append] at hp
      rw [hp]
      simp

theorem getLast?_append_right (pre l : List Char) (h : l ≠ []) :
    (pre ++ l).getLast? = l.getLast? := by
  have hs := List.getLast?_isSome.mpr h
  obtain ⟨x, hx⟩ := Option.isSome_iff_exists.mp hs
  rw [List.getLast?_append, hx]
  rfl

theorem save_last_line_nonempty (ls : List (List Char)) (l : List Char)
    (hnl : ∀ x ∈ ls ++ [l], '\n' ∉ x) (hne : l ≠ []) :
    endsOneNewline (save_file_content (ls ++ [l])) := by
  obtain ⟨pre, hp⟩ := joinNl_concat ls l
  have hs := List.getLast?_isSome.mpr hne
  obtain ⟨x, hx⟩ := Option.isSome_iff_exists.mp hs
  have hxl : x ∈ l := List.mem_of_mem_getLast? (Option.mem_def.mpr hx)
  have hxne : x ≠ '\n' := fun h => hnl l (by simp) (h ▸ hxl)
  have hjlast : (joinNl (ls ++ [l])).getLast? = some x := by
    rw [hp, getLast?_append_right _ _ hne, hx]
  unfold save_file_content
  simp only [hjlast, if_pos hxne]
  constructor
  · rw [List.getLast?_concat]
  · rw [List.dropLast_concat, hjlast]
    simp [hxne]

theorem save_round_trip (core : List Char) (k : Nat) (hr : '\r' ∉ core)
    (hne : core ≠ []) (hlast : core.getLast? ≠ some '\n') (hk : k ≤ 1) :
    save_file_content (load_content (core ++ List.replicate k '\n')) = core ++ ['\n'] := by
  have key : load_content (core ++ List.replicate k '\n') = rust_lines core := by
    interval_cases k
    · simp only [List.replicate, List.append_nil, load_content]
      rw [if_neg (rust_lines_ne_nil core hne)]
    · have h1 : List.replicate 1 '\n' = ['\n'] := rfl
      rw [h1]
      simp only [load_content]
      rw [rust_lines_append_newline core hr hne hlast,
        if_neg (rust_lines_ne_nil core hne)]
  rw [key]
  have hs := List.getLast?_isSome.mpr hne
  obtain ⟨x, hx⟩ := Option.isSome_iff_exists.mp hs
  have hxne : x ≠ '\n' := fun h => hlast (h ▸ hx)
  unfold save_file_content
  simp only [joinNl_rust_lines core hr hlast, hx, if_pos hxne]

/-- C4 counterexample: the initial single-empty-line document — which is
also `load("")` and `load("\n")` — serializes to the empty string: the
output has no trailing newline at all, and the round trip of `""` yields
`""` rather than a newline-normalized text. -/
theorem serialize_initial_document_no_newline :
    load_content [] = [[]]
    ∧ save_file_content (load_content []) = []
    ∧ ¬ endsOneNewline (save_file_content (load_content [])) := by decide

/-- C4 amended: the serialized output ends in exactly one trailing newline
for every document whose last line is nonempty (and whose lines contain no
newlines, as for every loadable document); and `serialize(load(text))`
equals `text` normalized to exactly one trailing newline for every
carriage-return-free text of the form `core ++ "\n"*k` with `core`
nonempty, `core` not ending in a newline, and `k ≤ 1`.  (The
single-empty-line document serializes to `""`, and each trailing newline
beyond the second is dropped rather than normalized, so the general claim
fails.) -/
theorem serialize_trailing_newline_amended (ls : List (List Char))
    (l core : List Char) (k : Nat) :
    ((∀ x ∈ ls ++ [l], '\n' ∉ x) → l ≠ [] →
      endsOneNewline (save_file_content (ls ++ [l])))
    ∧ ('\r' ∉ core → core ≠ [] → core.getLast? ≠ some '\n' → k ≤ 1 →
      save_file_content (load_content (core ++ List.replicate k '\n'))
        = core ++ ['\n']) :=
  ⟨fun hnl hne => save_last_line_nonempty ls l hnl hne,
   fun hr hne hlast hk => save_round_trip core k hr hne hlast hk⟩

theorem serialize_trailing_newline_amended_witness :
    endsOneNewline (save_file_content [['a']])
    ∧ save_file_content (load_content (['a'] ++ List.replicate 1 '\n'))
        = ['a'] ++ ['\n'] := by
  have h := serialize_trailing_newline_amended [] ['a'] ['a'] 1
  exact ⟨h.1 (by decide) (by decide), h.2 (by decide) (by decide) (by decide) (by decide)⟩

/-! ## The smart un-indent backspace of `src/main.rs` -/

/-- Checked `usize` subtraction: `none` marks the arithmetic underflow
that panics a debug build (a release build wraps around to a huge value);
either way `b ≤ a` is the condition under which the source's subtraction
is meaningful. -/
def usub (a b : Nat) : Option Nat :=
  if b ≤ a then some (a - b) else none

/-- Checked `String::remove` (the source panics when the index is out of
range). -/
def removeChecked (line : List Char) (j : Nat) : Option (List Char) :=
  if j < line.length then some (line.eraseIdx j) else none

/-- The `remove_four` scan of `Editor::delete_char` in `src/main.rs`
(lines 162-171): for every `i` in `1..=4` it evaluates `cursor_x - i` and
inspects `char_indices().nth(cursor_x - i)`; a present non-space character
clears the flag.  The subtraction is evaluated unconditionally for each
`i`. -/
def remove_four_scan (x : Nat) (line : List Char) : Option Bool :=
  List.foldlM
    (fun b i => do
      let j ← usub x i
      pure (if (line.get? j).elim false (fun c => c ≠ ' ') then false else b))
    true [1, 2, 3, 4]

/-- The un-indent loop `for i in 2..=length` of `src/main.rs` (lines
179-181), removing at `cursor_x - i` from the shrinking line. -/
def remove_loop (x : Nat) : List Char → List Nat → Option (List Char)
  | line, [] => some line
  | line, i :: rest => do
    let j ← usub x i
    let line' ← removeChecked line j
    remove_loop x line' rest

/-- `Editor::delete_char` from `src/main.rs` (the smart 4-space un-indent
variant), with every `usize` subtraction and index access checked:
`none` is an arithmetic-underflow or out-of-range panic of the source. -/
def delete_char_smart (s : Editor) : Option Editor :=
  if s.cursor_x = 0 ∧ s.cursor_y = 0 then some s
  else if 0 < s.cursor_x then do
    let line := currentLine s
    let remove_four ← remove_four_scan s.cursor_x line
    let j1 ← usub s.cursor_x 1
    let line1 ← removeChecked line j1
    if remove_four then
      let length := if 3 < line1.length then 4 else line1.length
      let line2 ← remove_loop s.cursor_x line1 (List.range' 2 (length + 1 - 2))
      let x1 ← usub s.cursor_x 3
      let x2 ← usub x1 1
      pure { s with content := s.content.set s.cursor_y line2, cursor_x := x2 }
    else
      let x1 ← usub s.cursor_x 1
      pure { s with content := s.content.set s.cursor_y line1, cursor_x := x1 }
  else
    let current_line := currentLine s
    let content' := s.content.eraseIdx s.cursor_y
    let y' := s.cursor_y - 1
    let prev := content'.getD y' []
    pure { s with content := content'.set y' (prev ++ current_line),
                  cursor_y := y', cursor_x := prev.length }

/-- A single-space document with the cursor after the space. -/
def editorOneSpace : Editor := { initEditor with content := [[' ']], cursor_x := 1 }

/-- C3: the smart un-indent `delete_char` of `src/main.rs` is not total
over well-formed state: in the reachable, cursor-valid state obtained by
inserting one space into the empty initial buffer, the scan evaluates
`cursor_x - i` with `i > cursor_x` (and the un-indent branch would also
evaluate `cursor_x - 3` with `cursor_x = 1`), an arithmetic underflow —
a panic in a debug build, a wrap-around to about `2^64` in release. -/
theorem delete_char_smart_underflows :
    Valid editorOneSpace
    ∧ insert_char initEditor ' ' = editorOneSpace
    ∧ delete_char_smart editorOneSpace = none := by decide

/-! ## Status-bar composition (`Editor::build_status_bar`,
`src/editor/render.rs`) -/

/-- Decimal digits of a usize as characters (Rust `format!` of an
integer); the fuel argument makes the recursion structural. -/
def natCharsAux : Nat → Nat → List Char → List Char
  | 0, _, acc => acc
  | fuel + 1, n, acc =>
    if n < 10 then Nat.digitChar n :: acc
    else natCharsAux fuel (n / 10) (Nat.digitChar (n % 10) :: acc)

/-- Decimal representation of `n`. -/
def natChars (n : Nat) : List Char := natCharsAux (n + 1) n []

/-- `STATUS_FILENAME_FG` from `src/editor/render.rs`. -/
def STATUS_FILENAME_FG : List Char := "\x1B[38;5;231m".toList

/-- `STATUS_MODE_FG`. -/
def STATUS_MODE_FG : List Char := "\x1B[35;5;213m".toList

/-- `STATUS_MSG_FG`. -/
def STATUS_MSG_FG : List Char := "\x1B[38;5;220m".toList

/-- `STATUS_CMD_FG`. -/
def STATUS_CMD_FG : List Char := "\x1B[38;5;117m".toList

/-- `STATUS_INFO_FG`. -/
def STATUS_INFO_FG : List Char := "\x1B[38;5;255m".toList

/-- `STATUS_TRANSPARENT_BG`. -/
def STATUS_TRANSPARENT_BG : List Char := "\x1B[49m".toList

/-- Mode names as displayed in the bar. -/
def mode_str : Mode → List Char
  | Mode.Normal => "NORMAL".toList
  | Mode.Insert => "INSERT".toList
  | Mode.Command => "COMMAND".toList

/-- The displayed file name (`"[No Name]"` when none is set). -/
def display_filename (s : Editor) : List Char :=
  match s.filename with
  | some f => f
  | none => "[No Name]".toList

/-- The `left_segment` of `build_status_bar`. -/
def left_segment (s : Editor) : List Char :=
  STATUS_FILENAME_FG ++ display_filename s ++ RESET ++ " -- ".toList
    ++ STATUS_MODE_FG ++ mode_str s.mode ++ RESET ++ " -- ".toList

/-- The `right_segment` of `build_status_bar`. -/
def right_segment (s : Editor) : List Char :=
  STATUS_INFO_FG ++ STATUS_TRANSPARENT_BG ++ "Ln ".toList
    ++ natChars (s.cursor_y + 1) ++ "/".toList ++ natChars s.content.length
    ++ " Col ".toList ++ natChars (s.cursor_x + 1)

/-- The `middle_content` of `build_status_bar`: status message, or the
command line, or nothing. -/
def middle_content (s : Editor) : List Char :=
  if s.status_msg ≠ [] then STATUS_MSG_FG ++ STATUS_TRANSPARENT_BG ++ s.status_msg
  else if s.show_command then
    STATUS_CMD_FG ++ STATUS_TRANSPARENT_BG ++ ":".toList ++ s.command_buffer
  else []

/-- Blank padding. -/
def spaces (n : Nat) : List Char := List.replicate n ' '

/-- The `available_space` of `build_status_bar`
(`screen_cols.saturating_sub(left_len + right_len)`). -/
def available_space (s : Editor) : Nat :=
  s.screen_cols - (visible_length (left_segment s) + visible_length (right_segment s))

/-- The `middle_segment` of `build_status_bar`: the content truncated to
the available space if too long, then padded with blanks to fill it. -/
def middle_segment (s : Editor) : List Char :=
  let mc := middle_content s
  if available_space s < visible_length mc then
    let truncated := truncate_visible mc (available_space s)
    truncated ++ spaces (available_space s - visible_length truncated)
  else mc ++ spaces (available_space s - visible_length mc)

/-- `Editor::build_status_bar` from `src/editor/render.rs`: the
cursor-position escape, the three segments, trailing blank padding, and a
final reset. -/
def build_status_bar (s : Editor) : List Char :=
  '\x1B' :: '[' :: (natChars (s.screen_rows + 1) ++ ";1H".toList
    ++ left_segment s ++ middle_segment s ++ right_segment s
    ++ spaces (s.screen_cols - (visible_length (left_segment s)
        + visible_length (middle_segment s) + visible_length (right_segment s)))
    ++ RESET)

/-- The spec's own scenario: terminal width 20, filename "x", mode NORMAL,
no message, no command. -/
def editorWidth20 : Editor :=
  { initEditor with filename := some ['x'], screen_cols := 20 }

/-- C7 counterexample: in the spec scenario (width 20, filename "x", mode
NORMAL, no message) the crossterm status bar has visible length 27, not
20: when the left and right segments alone exceed the width, nothing is
truncated and the bar overflows the terminal width. -/
theorem status_bar_not_exact_width :
    visible_length (build_status_bar editorWidth20) = 27
    ∧ editorWidth20.screen_cols = 20 := by decide

theorem digitChar_ok (k : Nat) (h : k < 10) :
    Nat.digitChar k ≠ 'm' ∧ Nat.digitChar k ≠ '\x1B' := by
  interval_cases k <;> exact ⟨by decide, by decide⟩

theorem natCharsAux_ok (fuel n : Nat) (acc : List Char)
    (hacc : ∀ c ∈ acc, c ≠ 'm' ∧ c ≠ '\x1B') :
    ∀ c ∈ natCharsAux fuel n acc, c ≠ 'm' ∧ c ≠ '\x1B' := by
  induction fuel generalizing n acc with
  | zero => exact hacc
  | succ fuel ih =>
    simp only [natCharsAux]
    split
    · next h =>
      intro c hc
      rcases List.mem_cons.mp hc with h1 | h1
      · exact h1 ▸ digitChar_ok n h
      · exact hacc c h1
    · next h =>
      refine ih _ _ (fun c hc => ?_)
      rcases List.mem_cons.mp hc with h1 | h1
      · exact h1 ▸ digitChar_ok (n % 10) (Nat.mod_lt n (by omega))
      · exact hacc c h1

theorem natChars_ok (n : Nat) : ∀ c ∈ natChars n, c ≠ 'm' ∧ c ≠ '\x1B' :=
  natCharsAux_ok (n + 1) n [] (by simp)

/-- A self-normalizing block: its visible length is independent of the
incoming escape state and it always leaves the scanner outside an escape
sequence. -/
def NormBlock (X : List Char) : Prop :=
  ∀ e, visibleAux e X = visibleAux false X ∧ escState e X = false

theorem normBlock_append (X Y : List Char) (hX : NormBlock X)
    (hY : escState false Y = false) : NormBlock (X ++ Y) := by
  intro e
  constructor
  · rw [visibleAux_append, visibleAux_append, (hX e).1, (hX e).2, (hX false).2]
  · rw [escState_append, (hX e).2, hY]

theorem noEsc_es_append (A B : List Char) (hA : '\x1B' ∉ A) :
    escState false (A ++ B) = escState false B := by
  rw [escState_append, (visibleAux_noEsc A hA).2]

theorem const_es_append (K B : List Char) (hK : escState false K = false) :
    escState false (K ++ B) = escState false B := by
  rw [escState_append, hK]

theorem reset_es_append (e : Bool) (B : List Char) :
    escState e (RESET ++ B) = escState false B := by
  rw [escState_append, escState_RESET]

theorem normConst_va_append (K : List Char)
    (hK : ∀ e', visibleAux e' K = 0 ∧ escState e' K = false)
    (e : Bool) (tail : List Char) :
    visibleAux e (K ++ tail) = visibleAux false tail := by
  rw [visibleAux_append, (hK e).1, (hK e).2]
  omega

/-- The left segment is a self-normalizing block, whatever the file name
contains. -/
theorem normBlock_left (s : Editor) : NormBlock (left_segment s) := by
  have hes : escState false (display_filename s ++ (RESET ++ (" -- ".toList
      ++ (STATUS_MODE_FG ++ (mode_str s.mode ++ (RESET ++ " -- ".toList)))))) = false := by
    rw [escState_append, reset_es_append,
      noEsc_es_append _ _ (by decide),
      const_es_append _ _ (by decide),
      escState_append, reset_es_append]
    decide
  intro e
  unfold left_segment
  simp only [List.append_assoc]
  have hK : ∀ e', visibleAux e' STATUS_FILENAME_FG = 0
      ∧ escState e' STATUS_FILENAME_FG = false := by decide
  constructor
  · rw [normConst_va_append _ hK e, normConst_va_append _ hK false]
  · rw [escState_append, (hK e).2, hes]

/-- The right segment is a self-normalizing block. -/
theorem normBlock_right (s : Editor) : NormBlock (right_segment s) := by
  have hdig : ∀ n, '\x1B' ∉ natChars n := by
    intro n hmem
    exact (natChars_ok n _ hmem).2 rfl
  have hes : escState false (STATUS_TRANSPARENT_BG ++ ("Ln ".toList
      ++ (natChars (s.cursor_y + 1) ++ ("/".toList ++ (natChars s.content.length
      ++ (" Col ".toList ++ natChars (s.cursor_x + 1))))))) = false := by
    rw [const_es_append _ _ (by decide),
      noEsc_es_append _ _ (by decide),
      noEsc_es_append _ _ (hdig _),
      noEsc_es_append _ _ (by decide),
      noEsc_es_append _ _ (hdig _),
      noEsc_es_append _ _ (by decide)]
    exact (visibleAux_noEsc _ (hdig _)).2
  intro e
  unfold right_segment
  simp only [List.append_assoc]
  have hK : ∀ e', visibleAux e' STATUS_INFO_FG = 0
      ∧ escState e' STATUS_INFO_FG = false := by decide
  constructor
  · rw [normConst_va_append _ hK e, normConst_va_append _ hK false]
  · rw [escState_append, (hK e).2, hes]

theorem spaces_va (n : Nat) :
    visibleAux false (spaces n) = n ∧ escState false (spaces n) = false := by
  have hne : '\x1B' ∉ spaces n := by
    intro h
    have := List.eq_of_mem_replicate h
    simp at this
  refine ⟨?_, (visibleAux_noEsc _ hne).2⟩
  rw [(visibleAux_noEsc _ hne).1]
  simp [spaces]

theorem es_middle_content (s : Editor)
    (hm : escState false s.status_msg = false)
    (hc : escState false s.command_buffer = false) :
    escState false (middle_content s) = false := by
  unfold middle_content
  split
  · simp only [List.append_assoc]
    rw [const_es_append _ _ (by decide), const_es_append _ _ (by decide)]
    exact hm
  · split
    · simp only [List.append_assoc]
      rw [const_es_append _ _ (by decide), const_es_append _ _ (by decide),
        noEsc_es_append _ _ (by decide)]
      exact hc
    · rfl

/-- Under closed-escape message/command content, the middle segment always
fills the available space exactly. -/
theorem middle_segment_fills (s : Editor)
    (hmc : escState false (middle_content s) = false) :
    visible_length (middle_segment s) = available_space s := by
  unfold middle_segment
  dsimp only
  split
  · next hlt =>
    have hvt := visible_length_truncate (middle_content s) (available_space s)
    have hk : available_space s
        - visible_length (truncate_visible (middle_content s) (available_space s)) = 0 := by
      rw [hvt]
      omega
    rw [hk]
    show visible_length (truncate_visible (middle_content s) (available_space s) ++ spaces 0) = _
    rw [show spaces 0 = ([] : List Char) from rfl, List.append_nil]
    unfold visible_length at hvt hlt ⊢
    rw [hvt]
    omega
  · next hge =>
    unfold visible_length at hge ⊢
    rw [visibleAux_append, hmc, (spaces_va _).1]
    omega

/-- C7 amended: for every state whose status message and command buffer
contain no unterminated escape sequence, the visible length of the
composed status bar is `max screen_cols (left_len + right_len)`: exactly
the terminal width whenever the filename/mode and position segments fit,
and the overflowing `left_len + right_len` (with the middle fully
truncated and no padding) when they do not. -/
theorem status_bar_spans_max_width (s : Editor)
    (hm : escState false s.status_msg = false)
    (hc : escState false s.command_buffer = false) :
    visible_length (build_status_bar s)
      = max s.screen_cols
          (visible_length (left_segment s) + visible_length (right_segment s)) := by
  have hmc := es_middle_content s hm hc
  have hvm := middle_segment_fills s hmc
  unfold build_status_bar
  simp only [visible_length, available_space] at hvm ⊢
  simp only [List.append_assoc]
  have h0 : ∀ X, visibleAux false ('\x1B' :: '[' :: X) = visibleAux true X := by
    intro X
    simp [visibleAux]
  rw [h0]
  have hD := visibleAux_noM (natChars (s.screen_rows + 1))
    (fun h => (natChars_ok _ _ h).1 rfl)
  rw [visibleAux_append, hD.1, hD.2]
  have hH : visibleAux true ";1H".toList = 0 ∧ escState true ";1H".toList = true := by
    decide
  rw [visibleAux_append, hH.1, hH.2]
  rw [visibleAux_append, (normBlock_left s true).1, (normBlock_left s true).2]
  rw [visibleAux_append]
  rw [visibleAux_append, (normBlock_right s _).1, (normBlock_right s _).2]
  rw [visibleAux_append, (spaces_va _).1, (spaces_va _).2, visibleAux_RESET]
  rw [hvm]
  omega

theorem status_bar_spans_max_width_witness :
    visible_length (build_status_bar editorWidth20) = 27
    ∧ visible_length (build_status_bar initEditor) = 80 := by
  have h1 := status_bar_spans_max_width editorWidth20 (by decide) (by decide)
  have h2 := status_bar_spans_max_width initEditor (by decide) (by decide)
  rw [h1, h2]
  exact ⟨by decide, by decide⟩
